import Mathlib

/-!
Verification development for the Factorio-Mod-Updater repository.

The definitions in this file are a shallow embedding of the Python sources:

* `src/models/game_mod.py` — `Release`, `GameMod`, `GameMod.get_latest_release`,
  `GameMod.find_release_by_sha1`, `GameMod.compare_with_remote`;
* `src/web_api/mod_synchronizer.py` — `ModSynchronizer.find_new_releases_from_remote`;
* `src/utils/file_hasher.py` — `FileHasher.calculate_sha1`;
* `src/models/changelog.py` — `ChangelogEntry` and its parsing methods;
* `src/game_mod.py` (legacy module, namespace `legacy`) — `parse_changelog_content`
  and `GameMod.parse_changelog`;
* `src/mod_processor/parse_mod_files.py` and `src/parse_mod_files.py` —
  `parse_mod_list_json`.

Machine-level conventions: `datetime` values are modelled as `Nat` ticks with
`datetime.min = 0`; bytes are `Nat` values below 256; 32-bit words in the SHA-1
model are `Nat` values reduced with `% 2 ^ 32`.  Python exceptions are modelled
with `Except`; an operation that can raise returns `Except PyErr _`.
-/

/-! ### Version ordering (model of `packaging.version`)

The program's version strings come from mod archive filenames matching
`\d+\.\d+\.\d+` and from the mod portal's release records, i.e. plain
dot-separated numerals.  `packaging.version.parse` on such strings yields a
`Version` whose comparison key is the tuple of numeric components with trailing
zeros stripped, compared lexicographically (all other key components — epoch,
pre/post/dev markers — are identical constants for this grammar).  `parseVersion`
models the parse on that grammar: it returns `none` exactly when
`packaging.version.parse` would raise `InvalidVersion` on such inputs
(empty or non-numeric components). -/

set_option maxRecDepth 40000

/-- Strict lexicographic order on lists of naturals, matching Python's
comparison of tuples of ints (a strict prefix is smaller). -/
def listLt : List Nat → List Nat → Bool
  | [], [] => false
  | [], _ :: _ => true
  | _ :: _, [] => false
  | a :: as, b :: bs => if a < b then true else if b < a then false else listLt as bs

/-- Comparison key of a parsed release segment: trailing zeros stripped,
as in `packaging.version._cmpkey`. -/
def cmpkey (v : List Nat) : List Nat :=
  (v.reverse.dropWhile (fun x => x == 0)).reverse

/-- Split a character list on `.` separators (the components of a version
string, as `packaging` isolates them). -/
def splitDot : List Char → List (List Char)
  | [] => [[]]
  | c :: cs =>
    if c = '.' then [] :: splitDot cs
    else
      match splitDot cs with
      | p :: ps => (c :: p) :: ps
      | [] => [[c]]

/-- Value of one `[0-9]+` component; `none` when the component is empty or has
a non-digit, in which case `packaging` raises `InvalidVersion`. -/
def decNat? (cs : List Char) : Option Nat :=
  if !cs.isEmpty && cs.all Char.isDigit then
    some (cs.foldl (fun a c => a * 10 + (c.toNat - 48)) 0)
  else none

/-- Numeric components of a dot-separated version string; `none` models an
`InvalidVersion` exception from `packaging.version.parse`. -/
def natComponents : List (List Char) → Option (List Nat)
  | [] => some []
  | c :: cs =>
    match decNat? c, natComponents cs with
    | some n, some ns => some (n :: ns)
    | _, _ => none

/-- Model of `packaging.version.parse` on the numeric grammar this program uses. -/
def parseVersion (s : String) : Option (List Nat) :=
  natComponents (splitDot s.data)

/-- `Version.__lt__`: strict comparison of parsed versions via their keys. -/
def versionLt (a b : List Nat) : Bool :=
  listLt (cmpkey a) (cmpkey b)

/-- `a <= b` on parsed versions; the key order is total, so this is `!(b < a)`. -/
def versionLe (a b : List Nat) : Bool :=
  !(versionLt b a)

/-! ### Data model (`src/models/game_mod.py` dataclasses) -/

/-- `ChangelogEntry` from `src/models/changelog.py`: `changes` is the raw text
of the block body (a `str` in the source). -/
structure ChangelogEntry where
  version : String
  date : String
  changes : String
deriving DecidableEq

/-- `Image` dataclass. -/
structure Image where
  id : String
  thumbnail : String
  url : String
deriving DecidableEq

/-- `License` dataclass. -/
structure License where
  description : String
  id : String
  name : String
  title : String
  url : String
deriving DecidableEq

/-- `ReleaseInfoJson` dataclass. -/
structure ReleaseInfoJson where
  dependencies : List String
  factorio_version : String
deriving DecidableEq

/-- `Release` dataclass; `released_at` is an optional datetime (`Nat` ticks). -/
structure Release where
  download_url : Option String := none
  file_name : String := ""
  info_json : Option ReleaseInfoJson := none
  released_at : Option Nat := none
  sha1 : String := ""
  version : String := ""
deriving DecidableEq

/-- `GameMod` dataclass.  `score` is a `float` in the source; it is only ever
stored and copied, never computed with, so an integer carrier is used. -/
structure GameMod where
  name : String
  category : Option String := none
  changelog : List ChangelogEntry := []
  created_at : Option Nat := none
  description : Option String := none
  downloads_count : Option Int := none
  homepage : Option String := none
  images : List Image := []
  last_highlighted_at : Option Nat := none
  license : Option License := none
  owner : Option String := none
  releases : List Release := []
  score : Option Int := none
  summary : Option String := none
  tags : List String := []
  thumbnail : Option String := none
  title : Option String := none
  updated_at : Option Nat := none
deriving DecidableEq

/-- Python exceptions that the embedded operations can raise. -/
inductive PyErr where
  | attributeError
  | valueError
  | typeError
  | invalidVersion
deriving DecidableEq

/-! ### `GameMod.get_latest_release`

The source sorts `self.releases` with
`key=lambda r: (version.parse(r.version), r.released_at or datetime.min)` and
`reverse=True`, then takes the head.  `sorted` computes every key first (in list
order, raising on the first unparseable version), then performs a stable
descending sort.  The stable descending sort is realized here by left-to-right
insertion, each element placed before the first strictly key-smaller one. -/

/-- `r.released_at or datetime.min`: a missing timestamp is replaced by the
minimum datetime (0). -/
def effTime (r : Release) : Nat :=
  r.released_at.getD 0

/-- Sort key of a release: the version comparison key paired with the
effective timestamp.  Python compares these tuples lexicographically, testing
`Version.__eq__` (key equality) before the timestamp. -/
def keyOf (r : Release) : Option (List Nat × Nat) :=
  (parseVersion r.version).map (fun v => (cmpkey v, effTime r))

/-- Strict order on sort keys, as Python compares the key tuples. -/
def keyLt (a b : List Nat × Nat) : Bool :=
  listLt a.1 b.1 || (a.1 == b.1 && decide (a.2 < b.2))

/-- Decorate each release with its sort key, in list order; `none` models the
`InvalidVersion` raised while `sorted` builds the keys. -/
def keyedReleases : List Release → Option (List ((List Nat × Nat) × Release))
  | [] => some []
  | r :: rs =>
    match keyOf r, keyedReleases rs with
    | some k, some ks => some ((k, r) :: ks)
    | _, _ => none

/-- Stable descending insertion: the new element goes before the first strictly
key-smaller element, hence after all elements with an equal key. -/
def insertD (x : (List Nat × Nat) × Release) :
    List ((List Nat × Nat) × Release) → List ((List Nat × Nat) × Release)
  | [] => [x]
  | y :: ys => if keyLt y.1 x.1 then x :: y :: ys else y :: insertD x ys

/-- Stable descending sort of keyed releases, equal to
`sorted(..., reverse=True)` on the decorated list. -/
def sortDesc (l : List ((List Nat × Nat) × Release)) :
    List ((List Nat × Nat) × Release) :=
  l.foldl (fun acc x => insertD x acc) []

/-- `GameMod.get_latest_release`: head of the descending sort, `none` for an
empty collection; raises `InvalidVersion` if some version string fails to parse. -/
def GameMod.get_latest_release (m : GameMod) : Except PyErr (Option Release) :=
  match keyedReleases m.releases with
  | none => .error .invalidVersion
  | some ks => .ok (((sortDesc ks).head?).map (fun p => p.2))

/-! ### `GameMod.find_release_by_sha1` -/

/-- Loop of `find_release_by_sha1`: first release whose `sha1` equals the
argument; the VERSION STRING of that release is returned. -/
def findSha1Version : List Release → String → Option String
  | [], _ => none
  | r :: rs, h => if r.sha1 = h then some r.version else findSha1Version rs h

/-- `GameMod.find_release_by_sha1`: linear scan returning the version number of
the first matching release, or `None`. -/
def GameMod.find_release_by_sha1 (m : GameMod) (sha1 : String) : Option String :=
  findSha1Version m.releases sha1

/-! ### `GameMod.compare_with_remote`

The source computes the latest local release, then rebinds
`remote_mod.releases` to the remote releases whose parsed version strictly
exceeds the parsed version of the local latest (all of them when the local
collection is empty), and returns the mutated `remote_mod`, or `None` when the
filtered collection is empty.  `self` is only read.  The embedding returns the
post-call states of both arguments together with the Python return value. -/

/-- One evaluation of the filter condition
`latest_local_release is None or version.parse(release.version) > version.parse(latest_local_release.version)`. -/
def keepNewer (latest : Option Release) (r : Release) : Option Bool :=
  match latest with
  | none => some true
  | some l =>
    match parseVersion r.version, parseVersion l.version with
    | some rv, some lv => some (versionLt lv rv)
    | _, _ => none

/-- The list comprehension filtering `remote_mod.releases`; `none` models an
`InvalidVersion` raised while evaluating a condition. -/
def filterNewer (latest : Option Release) : List Release → Option (List Release)
  | [] => some []
  | r :: rs =>
    match keepNewer latest r, filterNewer latest rs with
    | some b, some rest => some (if b then r :: rest else rest)
    | _, _ => none

/-- `GameMod.compare_with_remote self remote_mod`: returns
`(self after the call, remote_mod after the call, Python return value)`. -/
def GameMod.compare_with_remote (self remote_mod : GameMod) :
    Except PyErr (GameMod × GameMod × Option GameMod) :=
  match self.get_latest_release with
  | .error e => .error e
  | .ok latest_local_release =>
    match filterNewer latest_local_release remote_mod.releases with
    | none => .error .invalidVersion
    | some newReleases =>
      .ok (self, { remote_mod with releases := newReleases },
        if newReleases.isEmpty then none
        else some { remote_mod with releases := newReleases })

/-! ### `ModSynchronizer.find_new_releases_from_remote` (`src/web_api/mod_synchronizer.py`)

The source first walks `local_mod.releases` executing
`release.released_at = remote_mod.find_release_by_sha1(release.sha1).released_at`
inside `try: ... except ValueError: release.released_at = parse_datetime("2000-01-25T21:45:21.794000Z")`,
then filters `remote_mod.releases` by
`release.released_at and (release.released_at > local_mod.get_latest_release().released_at)`.

`GameMod.find_release_by_sha1` (imported from `models/game_mod.py`) returns the
version number `str` of the matching release, or `None`; neither value has a
`released_at` attribute, so the attribute access raises `AttributeError`, which
the `except ValueError` clause does not catch. -/

/-- Tick value of `parse_datetime("2000-01-25T21:45:21.794000Z")`
(microseconds since 1970-01-01T00:00Z on the model's tick scale). -/
def sentinel_datetime : Nat := 948836721794000

/-- Attribute access `x.released_at` where `x` is the `Optional[str]` returned
by `GameMod.find_release_by_sha1`: a `str` version number or `None`, neither of
which has a `released_at` attribute, so this always raises `AttributeError`. -/
def releasedAtOfVersionString : Option String → Except PyErr (Option Nat)
  | _ => .error .attributeError

/-- The back-fill loop over `local_mod.releases`.  The `try` body evaluates the
attribute access; `except ValueError` substitutes the sentinel timestamp; any
other exception propagates. -/
def backfillReleases (remote_mod : GameMod) : List Release → Except PyErr (List Release)
  | [] => .ok []
  | r :: rs =>
    match releasedAtOfVersionString (remote_mod.find_release_by_sha1 r.sha1) with
    | .ok t =>
      match backfillReleases remote_mod rs with
      | .ok rest => .ok ({ r with released_at := t } :: rest)
      | .error e => .error e
    | .error .valueError =>
      match backfillReleases remote_mod rs with
      | .ok rest => .ok ({ r with released_at := some sentinel_datetime } :: rest)
      | .error e => .error e
    | .error e => .error e

/-- One evaluation of the filter condition
`release.released_at and (release.released_at > local_mod.get_latest_release().released_at)`:
a missing `released_at` is falsy and short-circuits to exclusion; otherwise
`get_latest_release()` is re-evaluated, `.released_at` on its `None` result
raises `AttributeError`, and comparing a `datetime` with `None` raises `TypeError`. -/
def keepByDate (local_mod : GameMod) (r : Release) : Except PyErr Bool :=
  match r.released_at with
  | none => .ok false
  | some t =>
    match local_mod.get_latest_release with
    | .error e => .error e
    | .ok none => .error .attributeError
    | .ok (some l) =>
      match l.released_at with
      | none => .error .typeError
      | some lt₀ => .ok (decide (lt₀ < t))

/-- The list comprehension filtering `remote_mod.releases` by release date. -/
def filterByDate (local_mod : GameMod) : List Release → Except PyErr (List Release)
  | [] => .ok []
  | r :: rs =>
    match keepByDate local_mod r, filterByDate local_mod rs with
    | .ok b, .ok rest => .ok (if b then r :: rest else rest)
    | .error e, _ => .error e
    | _, .error e => .error e

/-- `ModSynchronizer.find_new_releases_from_remote local_mod remote_mod`:
returns `(local_mod after the call, remote_mod after the call, Python return value)`. -/
def find_new_releases_from_remote (local_mod remote_mod : GameMod) :
    Except PyErr (GameMod × GameMod × Option GameMod) :=
  match backfillReleases remote_mod local_mod.releases with
  | .error e => .error e
  | .ok newLocal =>
    match filterByDate { local_mod with releases := newLocal } remote_mod.releases with
    | .error e => .error e
    | .ok kept =>
      .ok ({ local_mod with releases := newLocal },
        { remote_mod with releases := kept },
        if kept.isEmpty then none
        else some { remote_mod with releases := kept })

/-! ### `parse_mod_list_json`

`ModFileRecognizer.parse_mod_list_json` (`src/mod_processor/parse_mod_files.py`)
and `ModFileManager.parse_mod_list_json` (`src/parse_mod_files.py`) share the
same body.  The filesystem and JSON layer is a collaborator: the embedding takes
the already-decoded `mod-list.json` entry list (`mod_list_data.get("mods", [])`,
each entry carrying a `"name"`).  `set(ignore_mods).union(STANDARD_MODS)` is
modelled as list concatenation, whose membership test agrees with set-union
membership. -/

/-- One entry of `mod-list.json`'s `"mods"` array. -/
structure ModListEntry where
  name : String
  enabled : Bool := true
deriving DecidableEq

/-- The hardcoded always-excluded standard mods. -/
def STANDARD_MODS : List String := ["base", "elevated-rails", "quality", "space-age"]

/-- `ModFileRecognizer.parse_mod_list_json` after file decoding: builds a
`GameMod` per entry whose name is in neither the caller's ignore list nor
`STANDARD_MODS`. -/
def parse_mod_list_json (modListMods : List ModListEntry)
    (ignore_mods : Option (List String)) : List GameMod :=
  let ig := ignore_mods.getD []
  let ignoredSet := ig ++ STANDARD_MODS
  (modListMods.filter (fun e => !(ignoredSet.contains e.name))).map
    (fun e => { name := e.name })

namespace legacy

/-- `ModFileManager.parse_mod_list_json` of `src/parse_mod_files.py`, whose body
is identical to `ModFileRecognizer.parse_mod_list_json`. -/
def parse_mod_list_json (modListMods : List ModListEntry)
    (ignore_mods : Option (List String)) : List GameMod :=
  let ig := ignore_mods.getD []
  let ignoredSet := ig ++ STANDARD_MODS
  (modListMods.filter (fun e => !(ignoredSet.contains e.name))).map
    (fun e => { name := e.name })

end legacy

deriving instance DecidableEq for Except

/-! ### Order lemmas for the version key -/

theorem listLt_irrefl (l : List Nat) : listLt l l = false := by
  induction l with
  | nil => rfl
  | cons a as ih => simp [listLt, ih]

theorem listLt_trans {a b c : List Nat} (hab : listLt a b = true)
    (hbc : listLt b c = true) : listLt a c = true := by
  induction a generalizing b c with
  | nil =>
    cases b with
    | nil => simp [listLt] at hab
    | cons y ys =>
      cases c with
      | nil => simp [listLt] at hbc
      | cons z zs => simp [listLt]
  | cons x xs ih =>
    cases b with
    | nil => simp [listLt] at hab
    | cons y ys =>
      cases c with
      | nil => simp [listLt] at hbc
      | cons z zs =>
        simp only [listLt] at hab hbc ⊢
        rcases Nat.lt_trichotomy x y with hxy | hxy | hxy
        · rcases Nat.lt_trichotomy y z with hyz | hyz | hyz
          · simp [Nat.lt_trans hxy hyz]
          · subst hyz
            simp [hxy]
          · rw [if_neg (Nat.lt_asymm hyz), if_pos hyz] at hbc
            exact absurd hbc (by simp)
        · subst hxy
          rw [if_neg (Nat.lt_irrefl x), if_neg (Nat.lt_irrefl x)] at hab
          rcases Nat.lt_trichotomy x z with hxz | hxz | hxz
          · simp [hxz]
          · subst hxz
            rw [if_neg (Nat.lt_irrefl x), if_neg (Nat.lt_irrefl x)] at hbc
            rw [if_neg (Nat.lt_irrefl x), if_neg (Nat.lt_irrefl x)]
            exact ih hab hbc
          · rw [if_neg (Nat.lt_asymm hxz), if_pos hxz] at hbc
            exact absurd hbc (by simp)
        · rw [if_neg (Nat.lt_asymm hxy), if_pos hxy] at hab
          exact absurd hab (by simp)

theorem listLt_asymm {a b : List Nat} (h : listLt a b = true) : listLt b a = false := by
  by_cases hba : listLt b a = true
  · have := listLt_trans h hba
    rw [listLt_irrefl] at this
    exact absurd this (by simp)
  · simpa using hba

theorem keyLt_trans {a b c : List Nat × Nat} (hab : keyLt a b = true)
    (hbc : keyLt b c = true) : keyLt a c = true := by
  simp only [keyLt, Bool.or_eq_true, Bool.and_eq_true, beq_iff_eq, decide_eq_true_eq] at hab hbc ⊢
  rcases hab with h1 | ⟨he1, ht1⟩
  · rcases hbc with h2 | ⟨he2, ht2⟩
    · exact Or.inl (listLt_trans h1 h2)
    · rw [he2] at h1
      exact Or.inl h1
  · rcases hbc with h2 | ⟨he2, ht2⟩
    · rw [he1]
      exact Or.inl h2
    · exact Or.inr ⟨he1.trans he2, Nat.lt_trans ht1 ht2⟩

theorem keyLt_asymm {a b : List Nat × Nat} (h : keyLt a b = true) : keyLt b a = false := by
  by_contra hba
  rw [Bool.not_eq_false] at hba
  have hac := keyLt_trans h hba
  simp only [keyLt, Bool.or_eq_true, Bool.and_eq_true, beq_iff_eq, decide_eq_true_eq] at hac
  rcases hac with h1 | ⟨_, ht⟩
  · rw [listLt_irrefl] at h1
    exact absurd h1 (by simp)
  · exact Nat.lt_irrefl _ ht

/-! ### Lemmas about the stable descending sort -/

/-- Descending relation between consecutive sorted elements: the earlier
element's key is not strictly below the later one's. -/
def RelD (a b : (List Nat × Nat) × Release) : Prop := keyLt a.1 b.1 = false

theorem mem_insertD {x y : (List Nat × Nat) × Release}
    {l : List ((List Nat × Nat) × Release)} :
    y ∈ insertD x l ↔ y = x ∨ y ∈ l := by
  induction l with
  | nil => simp [insertD]
  | cons a as ih =>
    by_cases h : keyLt a.1 x.1 = true
    · simp only [insertD, if_pos h, List.mem_cons]
    · simp only [insertD, if_neg h, List.mem_cons, ih]
      tauto

theorem pairwise_insertD {x : (List Nat × Nat) × Release}
    {l : List ((List Nat × Nat) × Release)} (hp : l.Pairwise RelD) :
    (insertD x l).Pairwise RelD := by
  induction l with
  | nil => exact List.Pairwise.cons (by simp) List.Pairwise.nil
  | cons a as ih =>
    rcases List.pairwise_cons.mp hp with ⟨ha, has⟩
    by_cases h : keyLt a.1 x.1 = true
    · simp only [insertD, if_pos h]
      refine List.pairwise_cons.mpr ⟨?_, hp⟩
      intro z hz
      rcases List.mem_cons.mp hz with rfl | hzs
      · exact keyLt_asymm h
      · show keyLt x.1 z.1 = false
        by_contra hxz
        rw [Bool.not_eq_false] at hxz
        have htr : keyLt a.1 z.1 = true := keyLt_trans h hxz
        have hfa : keyLt a.1 z.1 = false := ha z hzs
        rw [hfa] at htr
        exact absurd htr (by simp)
    · simp only [insertD, if_neg h]
      refine List.pairwise_cons.mpr ⟨?_, ih has⟩
      intro z hz
      rcases mem_insertD.mp hz with rfl | hzs
      · show keyLt a.1 z.1 = false
        simpa using h
      · exact ha z hzs

theorem mem_sortAux {y : (List Nat × Nat) × Release}
    {l acc : List ((List Nat × Nat) × Release)} :
    y ∈ l.foldl (fun acc x => insertD x acc) acc ↔ y ∈ acc ∨ y ∈ l := by
  induction l generalizing acc with
  | nil => simp
  | cons a as ih =>
    simp only [List.foldl_cons, ih, mem_insertD, List.mem_cons]
    tauto

theorem mem_sortDesc {y : (List Nat × Nat) × Release}
    {l : List ((List Nat × Nat) × Release)} :
    y ∈ sortDesc l ↔ y ∈ l := by
  unfold sortDesc
  rw [mem_sortAux]
  simp

theorem pairwise_sortAux {l acc : List ((List Nat × Nat) × Release)}
    (hacc : acc.Pairwise RelD) :
    (l.foldl (fun acc x => insertD x acc) acc).Pairwise RelD := by
  induction l generalizing acc with
  | nil => simpa
  | cons a as ih => exact ih (pairwise_insertD hacc)

theorem pairwise_sortDesc (l : List ((List Nat × Nat) × Release)) :
    (sortDesc l).Pairwise RelD :=
  pairwise_sortAux List.Pairwise.nil

theorem head_max {l : List ((List Nat × Nat) × Release)}
    {h : (List Nat × Nat) × Release} (hp : l.Pairwise RelD)
    (hh : l.head? = some h) : ∀ y ∈ l, y = h ∨ keyLt h.1 y.1 = false := by
  cases l with
  | nil => simp at hh
  | cons a as =>
    simp only [List.head?_cons, Option.some.injEq] at hh
    subst hh
    intro y hy
    rcases List.mem_cons.mp hy with rfl | hys
    · exact Or.inl rfl
    · exact Or.inr ((List.pairwise_cons.mp hp).1 y hys)

/-! ### Properties of `keyedReleases` -/

theorem keyedReleases_mem {rs : List Release} {ks : List ((List Nat × Nat) × Release)}
    (h : keyedReleases rs = some ks) :
    ∀ p ∈ ks, p.2 ∈ rs ∧ keyOf p.2 = some p.1 := by
  induction rs generalizing ks with
  | nil =>
    simp only [keyedReleases, Option.some.injEq] at h
    subst h
    simp
  | cons r rest ih =>
    simp only [keyedReleases] at h
    cases hk : keyOf r with
    | none => rw [hk] at h; exact absurd h (by simp)
    | some k =>
      rw [hk] at h
      cases hks : keyedReleases rest with
      | none => rw [hks] at h; exact absurd h (by simp)
      | some ks' =>
        rw [hks] at h
        simp only [Option.some.injEq] at h
        subst h
        intro p hp
        rcases List.mem_cons.mp hp with rfl | hp'
        · exact ⟨List.mem_cons_self _ _, hk⟩
        · rcases ih hks p hp' with ⟨h1, h2⟩
          exact ⟨List.mem_cons_of_mem _ h1, h2⟩

theorem keyedReleases_mem_of {rs : List Release} {ks : List ((List Nat × Nat) × Release)}
    (h : keyedReleases rs = some ks) :
    ∀ s ∈ rs, ∃ k, (k, s) ∈ ks ∧ keyOf s = some k := by
  induction rs generalizing ks with
  | nil => simp
  | cons r rest ih =>
    simp only [keyedReleases] at h
    cases hk : keyOf r with
    | none => rw [hk] at h; exact absurd h (by simp)
    | some k =>
      rw [hk] at h
      cases hks : keyedReleases rest with
      | none => rw [hks] at h; exact absurd h (by simp)
      | some ks' =>
        rw [hks] at h
        simp only [Option.some.injEq] at h
        subst h
        intro s hs
        rcases List.mem_cons.mp hs with rfl | hs'
        · exact ⟨k, List.mem_cons_self _ _, hk⟩
        · rcases ih hks s hs' with ⟨k', hk1, hk2⟩
          exact ⟨k', List.mem_cons_of_mem _ hk1, hk2⟩

theorem keyedReleases_isSome {rs : List Release}
    (hp : ∀ r ∈ rs, (parseVersion r.version).isSome) :
    ∃ ks, keyedReleases rs = some ks := by
  induction rs with
  | nil => exact ⟨[], rfl⟩
  | cons r rest ih =>
    have hr : (parseVersion r.version).isSome := hp r (List.mem_cons_self _ _)
    rcases Option.isSome_iff_exists.mp hr with ⟨v, hv⟩
    rcases ih (fun s hs => hp s (List.mem_cons_of_mem _ hs)) with ⟨ks, hks⟩
    refine ⟨((cmpkey v, effTime r), r) :: ks, ?_⟩
    simp [keyedReleases, keyOf, hv, hks]

/-! ### Behaviour of `get_latest_release` -/

theorem get_latest_release_nil {m : GameMod} (h : m.releases = []) :
    m.get_latest_release = .ok none := by
  simp [GameMod.get_latest_release, h, keyedReleases, sortDesc]

theorem keyOf_eq {r : Release} {k : List Nat × Nat} (h : keyOf r = some k) :
    ∃ v, parseVersion r.version = some v ∧ k = (cmpkey v, effTime r) := by
  unfold keyOf at h
  cases hv : parseVersion r.version with
  | none => rw [hv] at h; simp at h
  | some v =>
    rw [hv] at h
    simp only [Option.map_some', Option.some.injEq] at h
    exact ⟨v, rfl, h.symm⟩

theorem get_latest_release_max {m : GameMod}
    (hp : ∀ r ∈ m.releases, (parseVersion r.version).isSome)
    (hne : m.releases ≠ []) :
    ∃ r vr, m.get_latest_release = .ok (some r) ∧ r ∈ m.releases ∧
      parseVersion r.version = some vr ∧
      ∀ s vs, s ∈ m.releases → parseVersion s.version = some vs →
        versionLt vr vs = false := by
  rcases keyedReleases_isSome hp with ⟨ks, hks⟩
  obtain ⟨r0, rs0, hr0⟩ : ∃ r0 rs0, m.releases = r0 :: rs0 := by
    cases hrel : m.releases with
    | nil => exact absurd hrel hne
    | cons a as => exact ⟨a, as, rfl⟩
  have hr0mem : r0 ∈ m.releases := by rw [hr0]; exact List.mem_cons_self _ _
  rcases keyedReleases_mem_of hks r0 hr0mem with ⟨k0, hk0mem, _⟩
  have hsorted_ne : sortDesc ks ≠ [] := by
    intro hemp
    have : (k0, r0) ∈ sortDesc ks := mem_sortDesc.mpr hk0mem
    rw [hemp] at this
    exact absurd this (List.not_mem_nil _)
  obtain ⟨h0, hh0⟩ : ∃ h0, (sortDesc ks).head? = some h0 := by
    cases hsd : sortDesc ks with
    | nil => exact absurd hsd hsorted_ne
    | cons a as => exact ⟨a, by simp [hsd]⟩
  have hmem0 : h0 ∈ ks := by
    apply mem_sortDesc.mp
    cases hsd : sortDesc ks with
    | nil => rw [hsd] at hh0; simp at hh0
    | cons a as =>
      rw [hsd] at hh0
      simp only [List.head?_cons, Option.some.injEq] at hh0
      subst hh0
      exact List.mem_cons_self _ _
  rcases keyedReleases_mem hks h0 hmem0 with ⟨hh0rel, hh0key⟩
  rcases keyOf_eq hh0key with ⟨vr, hvr, hkey⟩
  refine ⟨h0.2, vr, ?_, hh0rel, hvr, ?_⟩
  · simp [GameMod.get_latest_release, hks, hh0]
  · intro s vs hs hvs
    rcases keyedReleases_mem_of hks s hs with ⟨k1, hk1mem, hk1key⟩
    rcases keyOf_eq hk1key with ⟨vs', hvs', hk1⟩
    rw [hvs] at hvs'
    injection hvs' with hvs'
    subst hvs'
    have hk1sorted : (k1, s) ∈ sortDesc ks := mem_sortDesc.mpr hk1mem
    rcases head_max (pairwise_sortDesc ks) hh0 (k1, s) hk1sorted with heq | hlt
    · have hkk : k1 = h0.1 := congrArg Prod.fst heq
      rw [hk1, hkey] at hkk
      have hcv : cmpkey vs = cmpkey vr := congrArg Prod.fst hkk
      unfold versionLt
      rw [hcv]
      exact listLt_irrefl _
    · rw [hkey, hk1] at hlt
      unfold keyLt at hlt
      rw [Bool.or_eq_false_iff] at hlt
      exact hlt.1

/-! ### Behaviour of `filterNewer` -/

theorem filterNewer_none (rs : List Release) : filterNewer none rs = some rs := by
  induction rs with
  | nil => rfl
  | cons r rest ih => simp [filterNewer, keepNewer, ih]

theorem filterNewer_mem {l : Release} {vl : List Nat}
    (hl : parseVersion l.version = some vl) {rs : List Release}
    (hr : ∀ r ∈ rs, (parseVersion r.version).isSome) :
    ∃ out, filterNewer (some l) rs = some out ∧
      ∀ x, x ∈ out ↔ x ∈ rs ∧
        ∃ vx, parseVersion x.version = some vx ∧ versionLt vl vx = true := by
  induction rs with
  | nil => exact ⟨[], rfl, by simp⟩
  | cons r rest ih =>
    rcases Option.isSome_iff_exists.mp (hr r (List.mem_cons_self _ _)) with ⟨vr, hvr⟩
    rcases ih (fun s hs => hr s (List.mem_cons_of_mem _ hs)) with ⟨out, hout, hmem⟩
    refine ⟨if versionLt vl vr then r :: out else out, ?_, ?_⟩
    · simp only [filterNewer, keepNewer, hvr, hl, hout]
    · intro x
      by_cases hb : versionLt vl vr = true
      · rw [if_pos hb]
        simp only [List.mem_cons, hmem]
        constructor
        · rintro (rfl | ⟨hx1, hx2⟩)
          · exact ⟨Or.inl rfl, vr, hvr, hb⟩
          · exact ⟨Or.inr hx1, hx2⟩
        · rintro ⟨rfl | hx1, hx2⟩
          · exact Or.inl rfl
          · exact Or.inr ⟨hx1, hx2⟩
      · rw [if_neg hb]
        simp only [List.mem_cons, hmem]
        constructor
        · rintro ⟨hx1, hx2⟩
          exact ⟨Or.inr hx1, hx2⟩
        · rintro ⟨rfl | hx1, hx2⟩
          · rcases hx2 with ⟨vx, hvx, hlt⟩
            rw [hvr] at hvx
            injection hvx with hvx
            subst hvx
            exact absurd hlt hb
          · exact ⟨hx1, hx2⟩

theorem filterNewer_idem {latest : Option Release} {rs out : List Release}
    (h : filterNewer latest rs = some out) : filterNewer latest out = some out := by
  induction rs generalizing out with
  | nil =>
    simp only [filterNewer, Option.some.injEq] at h
    subst h
    rfl
  | cons r rest ih =>
    simp only [filterNewer] at h
    cases hk : keepNewer latest r with
    | none => rw [hk] at h; simp at h
    | some b =>
      rw [hk] at h
      cases hrest : filterNewer latest rest with
      | none => rw [hrest] at h; simp at h
      | some out' =>
        rw [hrest] at h
        simp only [Option.some.injEq] at h
        have hidem := ih hrest
        cases b with
        | false =>
          rw [if_neg (by simp)] at h
          subst h
          exact hidem
        | true =>
          rw [if_pos rfl] at h
          subst h
          simp [filterNewer, hk, hidem]

/-! ### Concrete scenario from the specification: mod `foo` -/

/-- Local release `1.0.0` with no timestamp (as scanned from disk). -/
def fooRel100 : Release := { version := "1.0.0" }

/-- Remote release `1.2.0`. -/
def fooRel120 : Release := { version := "1.2.0" }

/-- Local mod `foo` with the single release `1.0.0`. -/
def fooLocal : GameMod := { name := "foo", releases := [fooRel100] }

/-- Remote mod `foo` with releases `1.0.0` and `1.2.0`. -/
def fooRemote : GameMod :=
  { name := "foo", releases := [{ version := "1.0.0", sha1 := "aa" }, fooRel120] }

/-- The remote mod after reconciliation: only release `1.2.0` remains. -/
def fooRemoteUpd : GameMod := { fooRemote with releases := [fooRel120] }

/-- Local mod `bar` with releases `2.0.0` and `1.9.9`. -/
def barLocal : GameMod :=
  { name := "bar", releases := [{ version := "2.0.0" }, { version := "1.9.9" }] }

/-- C1: `compare_with_remote` keeps a remote release exactly when its parsed
version strictly exceeds the parsed version of the local latest release; with
an empty local collection every remote release is kept; and on local `foo` with
release `1.0.0` against remote `foo` with releases `1.0.0` and `1.2.0`, the
result contains exactly the `1.2.0` release. -/
theorem c1_compare_with_remote_version_filter :
    (∀ (lm rmod : GameMod),
      (∀ r ∈ lm.releases, (parseVersion r.version).isSome) →
      (∀ r ∈ rmod.releases, (parseVersion r.version).isSome) →
      ∃ rmUpd res, lm.compare_with_remote rmod = .ok (lm, rmUpd, res) ∧
        (lm.releases = [] → rmUpd.releases = rmod.releases) ∧
        (∀ latest vl, lm.get_latest_release = .ok (some latest) →
          parseVersion latest.version = some vl →
          ∀ x, x ∈ rmUpd.releases ↔ x ∈ rmod.releases ∧
            ∃ vx, parseVersion x.version = some vx ∧ versionLt vl vx = true)) ∧
    GameMod.compare_with_remote fooLocal fooRemote =
      .ok (fooLocal, fooRemoteUpd, some fooRemoteUpd) ∧
    fooRemoteUpd.releases = [fooRel120] := by
  refine ⟨?_, rfl, rfl⟩
  intro lm rmod hpl hpr
  by_cases hne : lm.releases = []
  · have hglr := get_latest_release_nil hne
    refine ⟨{ rmod with releases := rmod.releases },
      if rmod.releases.isEmpty then none
      else some { rmod with releases := rmod.releases }, ?_, ?_, ?_⟩
    · simp only [GameMod.compare_with_remote, hglr, filterNewer_none]
    · intro _
      rfl
    · intro latest vl hlat hvl x
      rw [hglr] at hlat
      simp at hlat
  · rcases get_latest_release_max hpl hne with ⟨r, vr, hglr, hrmem, hvr, _⟩
    rcases filterNewer_mem hvr hpr with ⟨out, hout, hmem⟩
    refine ⟨{ rmod with releases := out },
      if out.isEmpty then none else some { rmod with releases := out }, ?_, ?_, ?_⟩
    · simp only [GameMod.compare_with_remote, hglr, hout]
    · intro h
      exact absurd h hne
    · intro latest vl hlat hvl x
      rw [hglr] at hlat
      simp only [Except.ok.injEq, Option.some.injEq] at hlat
      subst hlat
      rw [hvr] at hvl
      injection hvl with hvl
      subst hvl
      exact hmem x

/-- Witness for C1 at the concrete `foo` scenario. -/
theorem c1_witness :
    ∃ rmUpd res, fooLocal.compare_with_remote fooRemote = .ok (fooLocal, rmUpd, res) ∧
      (fooLocal.releases = [] → rmUpd.releases = fooRemote.releases) ∧
      (∀ latest vl, fooLocal.get_latest_release = .ok (some latest) →
        parseVersion latest.version = some vl →
        ∀ x, x ∈ rmUpd.releases ↔ x ∈ fooRemote.releases ∧
          ∃ vx, parseVersion x.version = some vx ∧ versionLt vl vx = true) :=
  c1_compare_with_remote_version_filter.1 fooLocal fooRemote (by decide) (by decide)

/-- C2: on a collection whose version strings all parse, `get_latest_release`
returns a release whose parsed version is greater than or equal to every other
release's parsed version, and returns `None` for the empty collection. -/
theorem c2_get_latest_release_is_max (m : GameMod)
    (hp : ∀ r ∈ m.releases, (parseVersion r.version).isSome) :
    (m.releases = [] → m.get_latest_release = .ok none) ∧
    (m.releases ≠ [] → ∃ r vr, m.get_latest_release = .ok (some r) ∧ r ∈ m.releases ∧
      parseVersion r.version = some vr ∧
      ∀ s vs, s ∈ m.releases → parseVersion s.version = some vs →
        versionLe vs vr = true) := by
  constructor
  · exact get_latest_release_nil
  · intro hne
    rcases get_latest_release_max hp hne with ⟨r, vr, h1, h2, h3, h4⟩
    exact ⟨r, vr, h1, h2, h3, fun s vs hs hvs => by simp [versionLe, h4 s vs hs hvs]⟩

/-- Witness for C2 at the concrete `bar` mod with releases `2.0.0`, `1.9.9`. -/
theorem c2_witness :
    (barLocal.releases = [] → barLocal.get_latest_release = .ok none) ∧
    (barLocal.releases ≠ [] → ∃ r vr, barLocal.get_latest_release = .ok (some r) ∧
      r ∈ barLocal.releases ∧ parseVersion r.version = some vr ∧
      ∀ s vs, s ∈ barLocal.releases → parseVersion s.version = some vs →
        versionLe vs vr = true) :=
  c2_get_latest_release_is_max barLocal (by decide)

/-- C3: on a two-release collection with equal parsed versions, the release
with the later effective timestamp is selected, where a missing timestamp
counts as the minimum timestamp (0, the model of `datetime.min`). -/
theorem c3_version_tie_timestamp_break :
    (∀ (r1 r2 : Release) (v1 v2 : List Nat) (m : GameMod),
      parseVersion r1.version = some v1 → parseVersion r2.version = some v2 →
      cmpkey v1 = cmpkey v2 → effTime r1 < effTime r2 →
      m.releases = [r1, r2] ∨ m.releases = [r2, r1] →
      m.get_latest_release = .ok (some r2)) ∧
    (∀ r : Release, r.released_at = none → effTime r = 0) := by
  constructor
  · intro r1 r2 v1 v2 m hv1 hv2 hck ht hrel
    have hk12 : keyLt (cmpkey v1, effTime r1) (cmpkey v2, effTime r2) = true := by
      simp [keyLt, hck, listLt_irrefl, ht]
    have hk21 : keyLt (cmpkey v2, effTime r2) (cmpkey v1, effTime r1) = false := by
      simp [keyLt, hck, listLt_irrefl]
      omega
    rcases hrel with h | h
    · simp [GameMod.get_latest_release, h, keyedReleases, keyOf, hv1, hv2,
        sortDesc, insertD, hk12]
    · simp [GameMod.get_latest_release, h, keyedReleases, keyOf, hv1, hv2,
        sortDesc, insertD, hk21]
  · intro r h
    simp [effTime, h]

/-- Release `1.0` with no timestamp, for the C3 witness. -/
def c3r1 : Release := { version := "1.0", released_at := none }

/-- Release `1.0.0` (same parsed version as `1.0`) with timestamp 5. -/
def c3r2 : Release := { version := "1.0.0", released_at := some 5 }

/-- Witness for C3: the timestamped release wins the tie, and the missing
timestamp is treated as the minimum. -/
theorem c3_witness :
    ({ name := "m", releases := [c3r1, c3r2] } : GameMod).get_latest_release =
      .ok (some c3r2) ∧ effTime c3r1 = 0 :=
  ⟨c3_version_tie_timestamp_break.1 c3r1 c3r2 [1, 0] [1, 0, 0] _
      (by decide) (by decide) (by decide) (by decide) (Or.inl rfl),
    c3_version_tie_timestamp_break.2 c3r1 (by decide)⟩

/-- C6: reconciliation is idempotent on its output — reconciling the local mod
against the already-filtered remote mod reproduces it unchanged. -/
theorem c6_reconciliation_idempotent :
    ∀ (lm rmod l1 rm1 m1 : GameMod),
      lm.compare_with_remote rmod = .ok (l1, rm1, some m1) →
      lm.compare_with_remote m1 = .ok (lm, m1, some m1) := by
  intro lm rmod l1 rm1 m1 h
  cases hg : lm.get_latest_release with
  | error e =>
    rw [GameMod.compare_with_remote, hg] at h
    simp at h
  | ok latest =>
    rw [GameMod.compare_with_remote, hg] at h
    cases hf : filterNewer latest rmod.releases with
    | none =>
      simp only [hf] at h
      simp at h
    | some out =>
      simp only [hf] at h
      by_cases he : out.isEmpty = true
      · rw [if_pos he] at h
        simp at h
      · rw [if_neg he] at h
        simp only [Except.ok.injEq, Prod.mk.injEq, Option.some.injEq] at h
        rcases h with ⟨h1, h2, h3⟩
        subst h3
        rw [GameMod.compare_with_remote, hg]
        simp only [filterNewer_idem hf, if_neg he]

/-- Witness for C6 at the concrete `foo` scenario. -/
theorem c6_witness :
    fooLocal.compare_with_remote fooRemoteUpd =
      .ok (fooLocal, fooRemoteUpd, some fooRemoteUpd) :=
  c6_reconciliation_idempotent fooLocal fooRemote fooLocal fooRemoteUpd fooRemoteUpd rfl

/-! ### Frame effects of reconciliation (C4) -/

theorem backfillReleases_ok {rm : GameMod} {rels nl : List Release}
    (h : backfillReleases rm rels = .ok nl) : rels = [] ∧ nl = [] := by
  cases rels with
  | nil =>
    simp only [backfillReleases, Except.ok.injEq] at h
    exact ⟨rfl, h.symm⟩
  | cons r rs =>
    simp [backfillReleases, releasedAtOfVersionString] at h

/-- C4: reconciliation leaves the local mod (its release collection included)
unchanged, and its output preserves every field of the remote mod other than
`releases`; the Python return value is either `None` or the updated remote
itself.  Stated for `GameMod.compare_with_remote` and for the timestamp-based
`find_new_releases_from_remote`, on every run that returns normally. -/
theorem c4_reconciliation_frame :
    (∀ (lm rmod : GameMod) out, lm.compare_with_remote rmod = .ok out →
      out.1 = lm ∧
      out.2.1.name = rmod.name ∧ out.2.1.category = rmod.category ∧
      out.2.1.changelog = rmod.changelog ∧ out.2.1.created_at = rmod.created_at ∧
      out.2.1.description = rmod.description ∧
      out.2.1.downloads_count = rmod.downloads_count ∧
      out.2.1.homepage = rmod.homepage ∧ out.2.1.images = rmod.images ∧
      out.2.1.last_highlighted_at = rmod.last_highlighted_at ∧
      out.2.1.license = rmod.license ∧ out.2.1.owner = rmod.owner ∧
      out.2.1.score = rmod.score ∧ out.2.1.summary = rmod.summary ∧
      out.2.1.tags = rmod.tags ∧ out.2.1.thumbnail = rmod.thumbnail ∧
      out.2.1.title = rmod.title ∧ out.2.1.updated_at = rmod.updated_at ∧
      (out.2.2 = none ∨ out.2.2 = some out.2.1)) ∧
    (∀ (lm rmod : GameMod) out, find_new_releases_from_remote lm rmod = .ok out →
      out.1 = lm ∧
      out.2.1.name = rmod.name ∧ out.2.1.category = rmod.category ∧
      out.2.1.changelog = rmod.changelog ∧ out.2.1.created_at = rmod.created_at ∧
      out.2.1.description = rmod.description ∧
      out.2.1.downloads_count = rmod.downloads_count ∧
      out.2.1.homepage = rmod.homepage ∧ out.2.1.images = rmod.images ∧
      out.2.1.last_highlighted_at = rmod.last_highlighted_at ∧
      out.2.1.license = rmod.license ∧ out.2.1.owner = rmod.owner ∧
      out.2.1.score = rmod.score ∧ out.2.1.summary = rmod.summary ∧
      out.2.1.tags = rmod.tags ∧ out.2.1.thumbnail = rmod.thumbnail ∧
      out.2.1.title = rmod.title ∧ out.2.1.updated_at = rmod.updated_at ∧
      (out.2.2 = none ∨ out.2.2 = some out.2.1)) := by
  constructor
  · intro lm rmod out h
    cases hg : lm.get_latest_release with
    | error e =>
      rw [GameMod.compare_with_remote, hg] at h
      simp at h
    | ok latest =>
      rw [GameMod.compare_with_remote, hg] at h
      cases hf : filterNewer latest rmod.releases with
      | none =>
        simp only [hf] at h
        simp at h
      | some newRel =>
        simp only [hf, Except.ok.injEq] at h
        subst h
        refine ⟨rfl, rfl, rfl, rfl, rfl, rfl, rfl, rfl, rfl, rfl, rfl, rfl,
          rfl, rfl, rfl, rfl, rfl, rfl, ?_⟩
        by_cases he : newRel.isEmpty = true
        · exact Or.inl (by simp [he])
        · exact Or.inr (by simp [he])
  · intro lm rmod out h
    cases hb : backfillReleases rmod lm.releases with
    | error e =>
      rw [find_new_releases_from_remote, hb] at h
      simp at h
    | ok nl =>
      rcases backfillReleases_ok hb with ⟨hrels, hnl⟩
      have hlm : ({ lm with releases := nl } : GameMod) = lm := by
        rw [hnl, ← hrels]
      rw [find_new_releases_from_remote, hb] at h
      cases hfd : filterByDate { lm with releases := nl } rmod.releases with
      | error e =>
        simp only [hfd] at h
        simp at h
      | ok kept =>
        simp only [hfd, Except.ok.injEq] at h
        subst h
        refine ⟨hlm, rfl, rfl, rfl, rfl, rfl, rfl, rfl, rfl, rfl, rfl, rfl,
          rfl, rfl, rfl, rfl, rfl, rfl, ?_⟩
        by_cases he : kept.isEmpty = true
        · exact Or.inl (by simp [he])
        · exact Or.inr (by simp [he])

/-- Witness for C4 at the concrete `foo` scenario. -/
theorem c4_witness :
    ((fooLocal, fooRemoteUpd, some fooRemoteUpd) : GameMod × GameMod × Option GameMod).1
        = fooLocal ∧
      fooRemoteUpd.name = fooRemote.name ∧ fooRemoteUpd.category = fooRemote.category ∧
      fooRemoteUpd.changelog = fooRemote.changelog ∧
      fooRemoteUpd.created_at = fooRemote.created_at ∧
      fooRemoteUpd.description = fooRemote.description ∧
      fooRemoteUpd.downloads_count = fooRemote.downloads_count ∧
      fooRemoteUpd.homepage = fooRemote.homepage ∧
      fooRemoteUpd.images = fooRemote.images ∧
      fooRemoteUpd.last_highlighted_at = fooRemote.last_highlighted_at ∧
      fooRemoteUpd.license = fooRemote.license ∧ fooRemoteUpd.owner = fooRemote.owner ∧
      fooRemoteUpd.score = fooRemote.score ∧ fooRemoteUpd.summary = fooRemote.summary ∧
      fooRemoteUpd.tags = fooRemote.tags ∧ fooRemoteUpd.thumbnail = fooRemote.thumbnail ∧
      fooRemoteUpd.title = fooRemote.title ∧
      fooRemoteUpd.updated_at = fooRemote.updated_at ∧
      ((some fooRemoteUpd : Option GameMod) = none ∨
        (some fooRemoteUpd : Option GameMod) = some fooRemoteUpd) :=
  c4_reconciliation_frame.1 fooLocal fooRemote (fooLocal, fooRemoteUpd, some fooRemoteUpd) rfl

/-! ### The `find_new_releases_from_remote` crash (C5) -/

/-- C5 (code bug): with any non-empty local release collection, the back-fill
loop's attribute access `find_release_by_sha1(...).released_at` operates on a
`str` or `None` and raises `AttributeError`; `except ValueError` does not catch
it, so the whole operation raises instead of back-filling timestamps. -/
theorem c5_find_new_releases_raises (lm rmod : GameMod) (hne : lm.releases ≠ []) :
    find_new_releases_from_remote lm rmod = .error .attributeError := by
  obtain ⟨r, rs, hr⟩ : ∃ r rs, lm.releases = r :: rs := by
    cases hrel : lm.releases with
    | nil => exact absurd hrel hne
    | cons a as => exact ⟨a, as, rfl⟩
  rw [find_new_releases_from_remote, hr]
  simp [backfillReleases, releasedAtOfVersionString]

/-- Local and remote mods sharing the release hash `"abc"`, the hash-matched
failing input for C5. -/
def syncLocal : GameMod :=
  { name := "s", releases := [{ version := "1.0.0", sha1 := "abc" }] }

/-- Remote counterpart of `syncLocal` whose release carries the same hash. -/
def syncRemote : GameMod :=
  { name := "s",
    releases := [{ version := "1.0.0", sha1 := "abc", released_at := some 10 }] }

/-- Witness for C5: the hash-matched scenario raises `AttributeError`. -/
theorem c5_witness :
    find_new_releases_from_remote syncLocal syncRemote = .error .attributeError :=
  c5_find_new_releases_raises syncLocal syncRemote (by decide)

/-! ### `find_release_by_sha1` linear scan (C8) -/

theorem findSha1Version_first {pre post : List Release} {r : Release} {h : String}
    (hpre : ∀ x ∈ pre, x.sha1 ≠ h) (hr : r.sha1 = h) :
    findSha1Version (pre ++ r :: post) h = some r.version := by
  induction pre with
  | nil => simp [findSha1Version, hr]
  | cons a as ih =>
    have ha : a.sha1 ≠ h := hpre a (List.mem_cons_self _ _)
    simp only [List.cons_append, findSha1Version, if_neg ha]
    exact ih (fun x hx => hpre x (List.mem_cons_of_mem _ hx))

theorem findSha1Version_none {rs : List Release} {h : String}
    (hall : ∀ x ∈ rs, x.sha1 ≠ h) : findSha1Version rs h = none := by
  induction rs with
  | nil => rfl
  | cons a as ih =>
    simp only [findSha1Version, if_neg (hall a (List.mem_cons_self _ _))]
    exact ih (fun x hx => hall x (List.mem_cons_of_mem _ hx))

/-- C8: `find_release_by_sha1` is a linear scan whose result is determined by
the first release (in stored order) whose `sha1` equals the argument, and is
`None` when no release matches. -/
theorem c8_find_release_by_sha1_first_match :
    ∀ (m : GameMod) (h : String),
      (∀ pre r post, m.releases = pre ++ r :: post →
        (∀ x ∈ pre, x.sha1 ≠ h) → r.sha1 = h →
        m.find_release_by_sha1 h = some r.version) ∧
      ((∀ x ∈ m.releases, x.sha1 ≠ h) → m.find_release_by_sha1 h = none) := by
  intro m h
  constructor
  · intro pre r post hsplit hpre hr
    unfold GameMod.find_release_by_sha1
    rw [hsplit]
    exact findSha1Version_first hpre hr
  · intro hall
    unfold GameMod.find_release_by_sha1
    exact findSha1Version_none hall

/-- First of two releases sharing the hash `"cafe"`. -/
def dupRelA : Release := { version := "1.0.0", sha1 := "cafe" }

/-- Second release with the same hash `"cafe"` under a newer version. -/
def dupRelB : Release := { version := "1.1.0", sha1 := "cafe" }

/-- Mod holding two releases with the same hash. -/
def dupMod : GameMod := { name := "dup", releases := [dupRelA, dupRelB] }

/-- Witness for C8: with a duplicated hash the first release in stored order
wins, and a missing hash yields `None`. -/
theorem c8_witness :
    dupMod.find_release_by_sha1 "cafe" = some "1.0.0" ∧
      dupMod.find_release_by_sha1 "beef" = none :=
  ⟨(c8_find_release_by_sha1_first_match dupMod "cafe").1 [] dupRelA [dupRelB]
      rfl (by simp) rfl,
    (c8_find_release_by_sha1_first_match dupMod "beef").2 (by decide)⟩

/-! ### Standard mods are always excluded (C10) -/

/-- C10: `parse_mod_list_json` (both the `ModFileRecognizer` and the legacy
`ModFileManager` version) never returns a mod named `base`, `elevated-rails`,
`quality` or `space-age`, whatever the caller's ignore list. -/
theorem c10_standard_mods_always_excluded :
    ∀ (mods : List ModListEntry) (ig : Option (List String)) (m : GameMod),
      (m ∈ parse_mod_list_json mods ig → m.name ∉ STANDARD_MODS) ∧
      (m ∈ legacy.parse_mod_list_json mods ig → m.name ∉ STANDARD_MODS) := by
  intro mods ig m
  constructor
  · intro hmem
    unfold parse_mod_list_json at hmem
    rcases List.mem_map.mp hmem with ⟨e, hefil, hme⟩
    have hkeep := List.of_mem_filter hefil
    intro habs
    rw [← hme] at habs
    simp at hkeep
    exact hkeep.2 habs
  · intro hmem
    unfold legacy.parse_mod_list_json at hmem
    rcases List.mem_map.mp hmem with ⟨e, hefil, hme⟩
    have hkeep := List.of_mem_filter hefil
    intro habs
    rw [← hme] at habs
    simp at hkeep
    exact hkeep.2 habs

/-- Witness for C10: a surviving mod's name is not a standard mod. -/
theorem c10_witness :
    ({ name := "foo" } : GameMod).name ∉ STANDARD_MODS :=
  (c10_standard_mods_always_excluded
      [{ name := "base" }, { name := "foo" }] none { name := "foo" }).1
    (by decide)

/-! ### SHA-1 (model of `hashlib.sha1`) and `FileHasher.calculate_sha1`

`hashlib`'s incremental interface guarantees that the digest equals the SHA-1
of the concatenation of all bytes passed to `update`.  SHA-1 itself is
implemented below over `Nat` words reduced modulo `2 ^ 32`, so that
`calculate_sha1`'s streaming loop can be proved to hash exactly the file's
full byte content. -/

/-- Reduce to a 32-bit word. -/
def w32 (n : Nat) : Nat := n % 4294967296

/-- Left-rotate a 32-bit word by `b` bits: low and high parts occupy disjoint
bit ranges, so their sum is their bitwise or. -/
def rotl (b n : Nat) : Nat := (n * 2 ^ b) % 4294967296 + n / 2 ^ (32 - b)

/-- SHA-1 round function for round `i`. -/
def sha1F (i b c d : Nat) : Nat :=
  if i < 20 then (b &&& c) ||| ((b ^^^ 4294967295) &&& d)
  else if i < 40 then b ^^^ c ^^^ d
  else if i < 60 then (b &&& c) ||| (b &&& d) ||| (c &&& d)
  else b ^^^ c ^^^ d

/-- SHA-1 round constant for round `i`. -/
def sha1K (i : Nat) : Nat :=
  if i < 20 then 1518500249
  else if i < 40 then 1859775393
  else if i < 60 then 2400959708
  else 3395469782

/-- Big-endian 32-bit words of a 64-byte block. -/
def bytesToWords : List Nat → List Nat
  | b0 :: b1 :: b2 :: b3 :: rest =>
    (((b0 * 256 + b1) * 256 + b2) * 256 + b3) :: bytesToWords rest
  | _ => []

/-- Message-schedule extension; `acc` holds the words generated so far in
reverse order, `k` counts the words still to generate. -/
def sha1Sched (acc : List Nat) : Nat → List Nat
  | 0 => acc
  | k + 1 =>
    sha1Sched
      (rotl 1 ((acc.getD 2 0 ^^^ acc.getD 7 0) ^^^ (acc.getD 13 0 ^^^ acc.getD 15 0))
        :: acc) k

/-- The 80 compression rounds over the schedule words. -/
def sha1Rounds : List Nat → Nat → Nat × Nat × Nat × Nat × Nat → Nat × Nat × Nat × Nat × Nat
  | [], _, st => st
  | wi :: rest, i, (a, b, c, d, e) =>
    sha1Rounds rest (i + 1)
      (w32 (rotl 5 a + sha1F i b c d + e + sha1K i + wi), a, rotl 30 b, c, d)

/-- Process one 64-byte block. -/
def sha1Block (h : Nat × Nat × Nat × Nat × Nat) (block : List Nat) :
    Nat × Nat × Nat × Nat × Nat :=
  match h, sha1Rounds ((sha1Sched (bytesToWords block).reverse 64).reverse) 0 h with
  | (h0, h1, h2, h3, h4), (a, b, c, d, e) =>
    (w32 (h0 + a), w32 (h1 + b), w32 (h2 + c), w32 (h3 + d), w32 (h4 + e))

/-- Accumulate 64-byte blocks; `cur` holds the current block reversed and
`curLen` its length (structural recursion so the kernel can evaluate it). -/
def blocks64Aux (cur : List Nat) (curLen : Nat) : List Nat -> List (List Nat)
  | [] => if cur.isEmpty then [] else [cur.reverse]
  | b :: rest =>
    if curLen = 63 then (b :: cur).reverse :: blocks64Aux [] 0 rest
    else blocks64Aux (b :: cur) (curLen + 1) rest

/-- Split into 64-byte blocks. -/
def blocks64 (l : List Nat) : List (List Nat) :=
  blocks64Aux [] 0 l

/-- `k` big-endian bytes of `n`. -/
def bigEndianBytes : Nat → Nat → List Nat
  | 0, _ => []
  | k + 1, n => bigEndianBytes k (n / 256) ++ [n % 256]

/-- SHA-1 padding: `0x80`, zeros to 56 mod 64, 8-byte big-endian bit length. -/
def sha1Pad (msg : List Nat) : List Nat :=
  msg ++ 128 :: List.replicate ((64 - (msg.length + 9) % 64) % 64) 0
    ++ bigEndianBytes 8 (8 * msg.length)

/-- SHA-1 state after absorbing the padded message. -/
def sha1Digest (msg : List Nat) : Nat × Nat × Nat × Nat × Nat :=
  (blocks64 (sha1Pad msg)).foldl sha1Block
    (1732584193, 4023233417, 2562383102, 271733878, 3285377520)

/-- Lower-case hex digit. -/
def hexChar (n : Nat) : Char :=
  if n < 10 then Char.ofNat (48 + n) else Char.ofNat (87 + n)

/-- `k` hex digits of `n`, most significant first. -/
def hexDigits : Nat → Nat → List Char
  | 0, _ => []
  | k + 1, n => hexDigits k (n / 16) ++ [hexChar (n % 16)]

/-- `hexdigest()`: the 40-character lower-case hex digest of a byte string. -/
def sha1Hex (msg : List Nat) : String :=
  match sha1Digest msg with
  | (h0, h1, h2, h3, h4) =>
    (hexDigits 8 h0 ++ hexDigits 8 h1 ++ hexDigits 8 h2 ++ hexDigits 8 h3
      ++ hexDigits 8 h4).asString

/-- Model of the file as `calculate_sha1`'s reads see it: `unreadable` when
`open` raises `IOError`; otherwise the bytes successfully delivered before
end-of-file, with `truncated = true` when the read after them raises `IOError`
mid-stream instead of returning the empty chunk. -/
inductive FileModel where
  | unreadable
  | readable (bytes : List Nat) (truncated : Bool)

/-- `ModProcessingError` from `src/exceptions/exceptions.py`; its message
(which embeds the file path) is not modelled. -/
inductive ModProcessingError where
  | mk
deriving DecidableEq

/-- The `while True: data = f.read(chunkSize); if not data: break; sha1.update(data)`
loop.  `fed` is the byte stream passed to `sha1.update` so far; the result is
the full stream fed when the loop breaks, or the `IOError` (as the
`ModProcessingError` the `except` clause turns it into) when a read raises. -/
def hashLoop (chunkSize : Nat) (truncated : Bool) (fed remaining : List Nat) :
    Except ModProcessingError (List Nat) :=
  if hrem : remaining.isEmpty then
    if truncated then .error .mk else .ok fed
  else
    if hdat : (remaining.take chunkSize).isEmpty then .ok fed
    else
      hashLoop chunkSize truncated (fed ++ remaining.take chunkSize)
        (remaining.drop chunkSize)
termination_by remaining.length
decreasing_by
  have hne : remaining ≠ [] := by simpa using hrem
  have hc : chunkSize ≠ 0 := by
    intro hz
    rw [hz] at hdat
    simp at hdat
  have hpos : 0 < remaining.length := List.length_pos.mpr hne
  simp only [List.length_drop]
  omega

/-- `FileHasher.calculate_sha1` (`src/utils/file_hasher.py`): streams the file
in `chunkSize`-byte reads (65536 in the source) through the SHA-1 digest and
returns the hex digest; an `IOError` from `open` or any `read` is re-raised as
`ModProcessingError`. -/
def calculate_sha1 (file : FileModel) (chunkSize : Nat) :
    Except ModProcessingError String :=
  match file with
  | .unreadable => .error .mk
  | .readable bytes truncated =>
    match hashLoop chunkSize truncated [] bytes with
    | .error e => .error e
    | .ok fed => .ok (sha1Hex fed)

theorem hashLoop_ok {c : Nat} (hc : 0 < c) :
    ∀ n (remaining fed : List Nat), remaining.length ≤ n →
      hashLoop c false fed remaining = .ok (fed ++ remaining) := by
  intro n
  induction n with
  | zero =>
    intro remaining fed hlen
    have : remaining = [] := List.length_eq_zero.mp (Nat.le_zero.mp hlen)
    subst this
    rw [hashLoop]
    simp
  | succ n ih =>
    intro remaining fed hlen
    rw [hashLoop]
    by_cases hrem : remaining.isEmpty = true
    · have : remaining = [] := by simpa using hrem
      subst this
      simp
    · rw [dif_neg (by simpa using hrem)]
      have hne : remaining ≠ [] := by simpa using hrem
      have htk : ¬((remaining.take c).isEmpty = true) := by
        simp only [List.isEmpty_iff, List.take_eq_nil_iff]
        intro h
        rcases h with h | h
        · omega
        · exact hne h
      rw [dif_neg htk]
      rw [ih (remaining.drop c) (fed ++ remaining.take c)
        (by simp only [List.length_drop]; omega)]
      rw [List.append_assoc, List.take_append_drop]

theorem hashLoop_truncated {c : Nat} (hc : 0 < c) :
    ∀ n (remaining fed : List Nat), remaining.length ≤ n →
      hashLoop c true fed remaining = .error .mk := by
  intro n
  induction n with
  | zero =>
    intro remaining fed hlen
    have : remaining = [] := List.length_eq_zero.mp (Nat.le_zero.mp hlen)
    subst this
    rw [hashLoop]
    simp
  | succ n ih =>
    intro remaining fed hlen
    rw [hashLoop]
    by_cases hrem : remaining.isEmpty = true
    · have : remaining = [] := by simpa using hrem
      subst this
      simp
    · rw [dif_neg (by simpa using hrem)]
      have hne : remaining ≠ [] := by simpa using hrem
      have htk : ¬((remaining.take c).isEmpty = true) := by
        simp only [List.isEmpty_iff, List.take_eq_nil_iff]
        intro h
        rcases h with h | h
        · omega
        · exact hne h
      rw [dif_neg htk]
      exact ih (remaining.drop c) (fed ++ remaining.take c)
        (by simp only [List.length_drop]; omega)

/-- The bytes of `b"hello world"`. -/
def helloWorldBytes : List Nat := [104, 101, 108, 108, 111, 32, 119, 111, 114, 108, 100]

/-- C7: for any positive chunk size, `calculate_sha1` hashes exactly the
file's complete byte content (so the digest is independent of the chunk size);
an unopenable file or a read failing mid-stream raises `ModProcessingError`
instead of hashing partial content; and the SHA-1 model agrees with the
reference digest of `b"hello world"`. -/
theorem c7_calculate_sha1_streams_whole_file :
    ∀ (bytes : List Nat) (c : Nat), 0 < c →
      calculate_sha1 (.readable bytes false) c = .ok (sha1Hex bytes) ∧
      calculate_sha1 (.readable bytes true) c = .error .mk ∧
      calculate_sha1 .unreadable c = .error .mk ∧
      sha1Hex helloWorldBytes = "2aae6c35c94fcfb415dbe95f408b9ce91ee846ed" := by
  intro bytes c hc
  refine ⟨?_, ?_, rfl, by decide⟩
  · simp only [calculate_sha1,
      hashLoop_ok hc bytes.length bytes [] le_rfl, List.nil_append]
  · simp only [calculate_sha1,
      hashLoop_truncated hc bytes.length bytes [] le_rfl]

/-- Witness for C7 at the source's 65536-byte chunk size on `b"hello world"`. -/
theorem c7_witness :
    calculate_sha1 (.readable helloWorldBytes false) 65536 =
        .ok (sha1Hex helloWorldBytes) ∧
      calculate_sha1 (.readable helloWorldBytes true) 65536 = .error .mk ∧
      calculate_sha1 .unreadable 65536 = .error .mk ∧
      sha1Hex helloWorldBytes = "2aae6c35c94fcfb415dbe95f408b9ce91ee846ed" :=
  c7_calculate_sha1_streams_whole_file helloWorldBytes 65536 (by decide)

/-! ### Changelog parsing (`src/models/changelog.py` and legacy `src/game_mod.py`)

The two changelog parsers are driven by `re` patterns.  They are
operationalized here by a small backtracking matcher over a sequence of
pattern items: literals, and character classes with a repetition range
(`low`..`high`, `high = none` for unbounded), greedy or lazy, optionally
capturing.  Greedy items try the longest repetition first, lazy items the
shortest, and the matcher backtracks into later items — the priority order of
Python's `re`.  Searching tries start offsets left to right (leftmost match).
The matcher recurses on a fuel that is always called with more fuel than
pattern items, so the fuel is never exhausted; it only makes the recursion
structural so that the kernel can evaluate it. -/

/-- One item of a regex pattern. -/
inductive RItem where
  | lit (cs : List Char)
  | cls (p : Char → Bool) (low : Nat) (high : Option Nat) (lzy : Bool) (cap : Bool)

/-- Python `str.strip()` whitespace. -/
def isPyWs (c : Char) : Bool :=
  c = ' ' || c = '\t' || c = '\n' || c = '\r' || c.toNat = 11 || c.toNat = 12

/-- `str.strip()`: remove leading and trailing whitespace. -/
def pyStrip (s : List Char) : List Char :=
  ((s.dropWhile isPyWs).reverse.dropWhile isPyWs).reverse

/-- Length of the maximal prefix run satisfying `p`. -/
def runLen (p : Char → Bool) (s : List Char) : Nat :=
  (s.takeWhile p).length

/-- Repetition counts to try for a class item, in priority order: `low..hi`
ascending when lazy, descending when greedy. -/
def clsCandidates (low : Nat) (high : Option Nat) (lzy : Bool) (m : Nat) : List Nat :=
  let hi := min (high.getD m) m
  if low > hi then []
  else if lzy then List.range' low (hi - low + 1)
  else (List.range' low (hi - low + 1)).reverse

/-- Try the repetition counts in order, continuing with `mi` on the rest. -/
def tryCands (mi : List Char → Option (List (List Char) × List Char)) (cp : Bool)
    (s : List Char) : List Nat → Option (List (List Char) × List Char)
  | [] => none
  | n :: ns =>
    match mi (s.drop n) with
    | some (caps, r) => some ((if cp then s.take n :: caps else caps), r)
    | none => tryCands mi cp s ns

/-- Match a pattern item sequence at the start of `s`, returning the captures
in item order and the suffix after the match. -/
def matchItems : Nat → List RItem → List Char → Option (List (List Char) × List Char)
  | 0, _, _ => none
  | _ + 1, [], s => some ([], s)
  | fuel + 1, .lit cs :: rest, s =>
    if cs.isPrefixOf s then matchItems fuel rest (s.drop cs.length) else none
  | fuel + 1, .cls p low high lzy cp :: rest, s =>
    tryCands (matchItems fuel rest) cp s (clsCandidates low high lzy (runLen p s))

/-- `re.search`: captures of the leftmost match, or `None`. -/
def searchCaps (its : List RItem) : List Char → Option (List (List Char))
  | [] => (matchItems (its.length + 1) its []).map Prod.fst
  | c :: cs =>
    match matchItems (its.length + 1) its (c :: cs) with
    | some cr => some cr.1
    | none => searchCaps its cs

/-- Leftmost match returning the captures and the suffix after the match. -/
def searchRest (its : List RItem) : List Char → Option (List (List Char) × List Char)
  | [] => matchItems (its.length + 1) its []
  | c :: cs =>
    match matchItems (its.length + 1) its (c :: cs) with
    | some cr => some cr
    | none => searchRest its cs

/-- `re.findall` iteration: collect captures of non-overlapping matches left to
right.  The fuel (`s.length + 1` at the call site) bounds the iteration count;
every pattern used here consumes at least one character per match, so the fuel
is never exhausted. -/
def refindallAux (its : List RItem) : Nat → List Char → List (List (List Char))
  | 0, _ => []
  | fuel + 1, s =>
    match searchRest its s with
    | none => []
    | some (caps, rest) => caps :: refindallAux its fuel rest

/-- `re.findall` on the whole string. -/
def refindall (its : List RItem) (s : List Char) : List (List (List Char)) :=
  refindallAux its (s.length + 1) s

/-- Splitter state machine for `re.split(r"-{10,}", ...)`: a maximal run of at
least ten dashes separates pieces; the `skip` flag is set while consuming the
remainder of such a run. -/
def splitDashesAux : Bool → List Char → List (List Char)
  | _, [] => [[]]
  | true, '-' :: cs => splitDashesAux true cs
  | _, c :: cs =>
    if c = '-' && ((c :: cs).take 10).all (fun x => x = '-') && 10 ≤ (c :: cs).length
    then [] :: splitDashesAux true cs
    else
      match splitDashesAux false cs with
      | p :: ps => (c :: p) :: ps
      | [] => [[c]]

/-- Character class `[0-9.]`. -/
def isVerChar (c : Char) : Bool := c.isDigit || c = '.'

/-- Character class of `.` without `re.DOTALL`: anything but a newline. -/
def isNotNl (c : Char) : Bool := !(c = '\n')

/-- The pattern `Version:\s*([0-9.]+)\s*\n\s*Date:\s*(.*?)\s*\n([\s\S]*)` of
`ChangelogEntry.from_version_block` (its `re.MULTILINE` flag only affects the
anchors `^`/`$`, which the pattern does not use). -/
def vbItems : List RItem := [
  .lit "Version:".data,
  .cls isPyWs 0 none false false,
  .cls isVerChar 1 none false true,
  .cls isPyWs 0 none false false,
  .lit "\n".data,
  .cls isPyWs 0 none false false,
  .lit "Date:".data,
  .cls isPyWs 0 none false false,
  .cls isNotNl 0 none true true,
  .cls isPyWs 0 none false false,
  .lit "\n".data,
  .cls (fun _ => true) 0 none false true]

/-- `ChangelogEntry.split_changelog`: split on runs of ten or more dashes
(after stripping the whole content). -/
def ChangelogEntry.split_changelog (changelog_content : String) : List String :=
  (splitDashesAux false (pyStrip changelog_content.data)).map List.asString

/-- `ChangelogEntry.from_version_block`: parse one block; `None` when the
block does not match the grammar.  Each captured group is `strip()`ped. -/
def ChangelogEntry.from_version_block (block : String) : Option ChangelogEntry :=
  match searchCaps vbItems (pyStrip block.data) with
  | none => none
  | some caps =>
    some { version := (pyStrip (caps.getD 0 [])).asString,
           date := (pyStrip (caps.getD 1 [])).asString,
           changes := (pyStrip (caps.getD 2 [])).asString }

/-- `ChangelogEntry.from_changelog_file`: parse every block, silently dropping
the blocks that do not match, preserving input order. -/
def ChangelogEntry.from_changelog_file (changelog_str : String) : List ChangelogEntry :=
  (ChangelogEntry.split_changelog changelog_str).filterMap
    ChangelogEntry.from_version_block

namespace legacy

/-- `ChangelogEntry` of the legacy `src/game_mod.py`: `changes` is a dict from
section heading to the list of change lines (an insertion-ordered association
list, as Python dicts preserve insertion order). -/
structure ChangelogEntry where
  version : String
  date : String
  changes : List (String × List String)
deriving DecidableEq

/-- `clean_line`: `re.sub(r'^\s*-\s*', '', line).strip()` — the sub matches
exactly when the first non-whitespace character is a dash, removing leading
whitespace, that dash, and the whitespace after it; otherwise the line is
unchanged; the result is then stripped. -/
def clean_line (line : List Char) : List Char :=
  pyStrip (match line.dropWhile isPyWs with
    | '-' :: rest => rest.dropWhile isPyWs
    | _ => line)

/-- Python `"...".split("\n")`. -/
def splitNl : List Char → List (List Char)
  | [] => [[]]
  | c :: cs =>
    if c = '\n' then [] :: splitNl cs
    else
      match splitNl cs with
      | p :: ps => (c :: p) :: ps
      | [] => [[c]]

/-- `re.match(r"^[A-Za-z ]+:", line)`: some non-empty prefix of letters and
spaces followed by a colon.  Only the maximal run can be followed by the
colon, since a colon is not in the class. -/
def headerMatch (l : List Char) : Bool :=
  !(l.takeWhile (fun c => c.isAlpha || c = ' ')).isEmpty &&
    ((l.drop (l.takeWhile (fun c => c.isAlpha || c = ' ')).length).head? == some ':')

/-- `change_dict[k] = []`: reset the key, keeping its dict position when it
already exists (Python dicts keep the original insertion position). -/
def dictSet : List (String × List String) → String → List (String × List String)
  | [], k => [(k, [])]
  | (k', v) :: rest, k =>
    if k' = k then (k, []) :: rest else (k', v) :: dictSet rest k

/-- `change_dict[k].append(x)`. -/
def dictAppend : List (String × List String) → String → String →
    List (String × List String)
  | [], _, _ => []
  | (k', v) :: rest, k, x =>
    if k' = k then (k', v ++ [x]) :: rest else (k', v) :: dictAppend rest k x

/-- The section-building loop of `parse_version_block`: stripped empty lines
are skipped, a header line starts a new section named by the line minus its
last character, and other lines are cleaned and appended to the current
section (dropped when no section is open yet). -/
def buildSections : List (List Char) → Option String → List (String × List String) →
    List (String × List String)
  | [], _, acc => acc
  | line :: rest, cur, acc =>
    if (pyStrip line).isEmpty then buildSections rest cur acc
    else if headerMatch (pyStrip line) then
      buildSections rest (some (pyStrip line).dropLast.asString)
        (dictSet acc (pyStrip line).dropLast.asString)
    else
      match cur with
      | some sec =>
        buildSections rest (some sec) (dictAppend acc sec (clean_line (pyStrip line)).asString)
      | none => buildSections rest none acc

/-- `parse_version_block`: `_, date, changes = block` — the captured version is
DISCARDED; the result holds the stripped date and the section dict built from
`changes.strip().split("\n")`. -/
def parse_version_block (date changes : List Char) :
    String × List (String × List String) :=
  ((pyStrip date).asString, buildSections (splitNl (pyStrip changes)) none [])

/-- The pattern `Version:\s([0-9.]+)\nDate:\s(.+)\n((?:.|\n)*?)\n-{10,}` of
`parse_changelog_content`. -/
def legacyItems : List RItem := [
  .lit "Version:".data,
  .cls isPyWs 1 (some 1) false false,
  .cls isVerChar 1 none false true,
  .lit "\n".data,
  .lit "Date:".data,
  .cls isPyWs 1 (some 1) false false,
  .cls isNotNl 1 none false true,
  .lit "\n".data,
  .cls (fun _ => true) 0 none true true,
  .lit "\n".data,
  .cls (fun c => c = '-') 10 none false false]

/-- `parse_changelog_content`: `re.findall` of the block pattern, then
`parse_version_block` on each match tuple. -/
def parse_changelog_content (changelog_content : String) :
    List (String × List (String × List String)) :=
  (refindall legacyItems changelog_content.data).map
    (fun caps => parse_version_block (caps.getD 1 []) (caps.getD 2 []))

/-- `GameMod.parse_changelog` of the legacy module: builds entries with
`version=block['date']` — the version field receives the DATE string. -/
def parse_changelog (changelog_str : String) : List ChangelogEntry :=
  (parse_changelog_content changelog_str).map
    (fun block => { version := block.1, date := block.1, changes := block.2 })

end legacy

/-- The concrete changelog input of C9. -/
def c9input : String :=
  "Version: 1.0.0\nDate: 2023-01-01\nFeatures:\n  - Added X\n----------"

/-- A three-block changelog whose middle block is malformed, with separator
runs of 11, 12 and 10 dashes. -/
def c9multi : String :=
  "Version: 1.0.0\nDate: 2023-01-01\nFeatures:\n  - Added X\n-----------\nnot a changelog block\n------------\nVersion: 1.1.0\nDate: 2023-02-02\nFixes:\n  - Fixed Y\n----------"

/-- The single entry the legacy section-producing parser yields on `c9input`. -/
def c9legacyEntry : legacy.ChangelogEntry :=
  { version := "2023-01-01", date := "2023-01-01",
    changes := [("Features", ["Added X"])] }

/-- Counterexample to C9 as stated: no parser in the source yields an entry
that has version `"1.0.0"` AND a `"Features"` section list `["Added X"]`.
The legacy parser (the only one producing sections, with the bullet stripped)
sets the version field to the DATE string `"2023-01-01"`; the current parser
(`ChangelogEntry.from_changelog_file`) gets version and date right but keeps
`changes` as the raw block body string, bullet marker included. -/
theorem c9_counterexample :
    legacy.parse_changelog c9input = [c9legacyEntry] ∧
    ¬(∃ e, legacy.parse_changelog c9input = [e] ∧ e.version = "1.0.0") ∧
    ChangelogEntry.from_changelog_file c9input =
      [{ version := "1.0.0", date := "2023-01-01",
         changes := "Features:\n  - Added X" }] := by
  refine ⟨by decide, ?_, by decide⟩
  rintro ⟨e, he, hv⟩
  have h1 : legacy.parse_changelog c9input = [c9legacyEntry] := by decide
  rw [h1] at he
  have he' : c9legacyEntry = e := by
    simpa using he
  rw [← he'] at hv
  exact absurd hv (by decide)

/-- C9 amended: on the given input, `ChangelogEntry.from_changelog_file`
yields exactly one entry with version `"1.0.0"`, date `"2023-01-01"` and
`changes` equal to the raw body string `"Features:\n  - Added X"` (sections not
split out, bullet not stripped), while the legacy `parse_changelog` yields
exactly one entry whose `changes` maps `"Features"` to `["Added X"]` (bullet
stripped) and whose date is `"2023-01-01"`, but whose version field carries the
date string instead of `"1.0.0"`.  Blocks are split on runs of ten or more
dashes, malformed blocks are silently dropped, and entry order follows input
order. -/
theorem c9_amended_two_parsers :
    ChangelogEntry.from_changelog_file c9input =
      [{ version := "1.0.0", date := "2023-01-01",
         changes := "Features:\n  - Added X" }] ∧
    legacy.parse_changelog c9input =
      [{ version := "2023-01-01", date := "2023-01-01",
         changes := [("Features", ["Added X"])] }] ∧
    ChangelogEntry.split_changelog c9input =
      ["Version: 1.0.0\nDate: 2023-01-01\nFeatures:\n  - Added X\n", ""] ∧
    ChangelogEntry.from_changelog_file c9multi =
      [{ version := "1.0.0", date := "2023-01-01",
         changes := "Features:\n  - Added X" },
       { version := "1.1.0", date := "2023-02-02",
         changes := "Fixes:\n  - Fixed Y" }] ∧
    legacy.parse_changelog c9multi =
      [{ version := "2023-01-01", date := "2023-01-01",
         changes := [("Features", ["Added X"])] },
       { version := "2023-02-02", date := "2023-02-02",
         changes := [("Fixes", ["Fixed Y"])] }] :=
  ⟨by decide, by decide, by decide, by decide, by decide⟩
